import Mathlib

/-!
Shallow embedding of the Claude conversation core
(src/src-tauri/src/shared/claude_core.rs) and proofs about the spec's claims.

Strings are modelled as Lean `String` (a list of unicode scalar values),
matching Rust `String`/`&str` at the level of `chars()`.  Byte-level
operations (UTF-8 length, byte slicing) are modelled explicitly via
`charBytes`.  External libraries (serde_json's parser, chrono's RFC3339
parser, the uuid parser) are modelled as abstract function parameters:
every claim below is independent of their internals.
-/

namespace ClaudeCore

/-- The character `{` (written via its code to keep source free of brace literals). -/
def braceChar : Char := Char.ofNat 123

/-- The character `}`. -/
def rbraceChar : Char := Char.ofNat 125

/-- Rust `char::is_whitespace` (Unicode White_Space property). -/
def rustIsWhitespace (c : Char) : Bool :=
  let n := c.toNat
  n = 0x09 || n = 0x0A || n = 0x0B || n = 0x0C || n = 0x0D || n = 0x20 ||
  n = 0x85 || n = 0xA0 || n = 0x1680 || (0x2000 ≤ n && n ≤ 0x200A) ||
  n = 0x2028 || n = 0x2029 || n = 0x202F || n = 0x205F || n = 0x3000

/-- Rust `str::trim` on a character list. -/
def rustTrimList (l : List Char) : List Char :=
  ((l.dropWhile rustIsWhitespace).reverse.dropWhile rustIsWhitespace).reverse

/-- Rust `str::trim`. -/
def rustTrim (s : String) : String :=
  String.mk (rustTrimList s.toList)

/-- `strip_ansi_sequences` (claude_core.rs lines 192-210): remove `ESC[`
CSI sequences (skipping up to and including the final byte in `@`..`~`); a
bare `ESC` is dropped silently.  The inner skip-until-final-byte loop is
folded into a boolean skipping mode to keep the recursion structural. -/
def stripAnsiAux : Bool → List Char → List Char
  | _, [] => []
  | true, c :: rest =>
    if '@' ≤ c && c ≤ '~' then stripAnsiAux false rest else stripAnsiAux true rest
  | false, '\x1b' :: '[' :: rest2 => stripAnsiAux true rest2
  | false, '\x1b' :: rest => stripAnsiAux false rest
  | false, c :: rest => c :: stripAnsiAux false rest

def stripAnsiList (l : List Char) : List Char :=
  stripAnsiAux false l

/-- `strip_ansi_sequences` on `String`. -/
def stripAnsi (s : String) : String :=
  String.mk (stripAnsiList s.toList)

/-- `is_server_token` (claude_core.rs lines 212-218): trimmed, non-empty and
every character ASCII alphanumeric or one of `-`, `_`, `.`. -/
def isServerTokenChar (c : Char) : Bool :=
  c.isAlphanum || c = '-' || c = '_' || c = '.'

def isServerToken (value : String) : Bool :=
  let token := rustTrim value
  !(token = "") && token.toList.all isServerTokenChar

/-- Association-list lookup keyed on strings; model of `HashMap::get` and of
serde_json's object field lookup (keys are unique after parsing). -/
def lookupKey {β : Type} : List (String × β) → String → Option β
  | [], _ => none
  | (a, b) :: rest, k => if a = k then some b else lookupKey rest k

/-- JSON values as produced by serde_json (numbers kept abstract as `Int`,
which no claim inspects). -/
inductive Json where
  | null : Json
  | bool (b : Bool) : Json
  | num (n : Int) : Json
  | str (s : String) : Json
  | arr (items : List Json) : Json
  | obj (fields : List (String × Json)) : Json

/-- `serde_json::Value::get(key)`: field lookup on objects, `None` otherwise. -/
def Json.getField : Json → String → Option Json
  | .obj fields, key => lookupKey fields key
  | _, _ => none

/-- `Value::as_str`. -/
def Json.asStr : Json → Option String
  | .str s => some s
  | _ => none

/-- `is_jsonrpc_payload` (claude_core.rs lines 220-226). -/
def is_jsonrpc_payload (v : Json) : Bool :=
  (((v.getField "method").bind Json.asStr).isSome
      || (v.getField "result").isSome
      || (v.getField "error").isSome)
    && ((v.getField "id").isSome || (v.getField "params").isSome)

/-- Split a character list at the first occurrence of `{` (Rust
`trimmed.find('{')` followed by `split_at`; the brace byte 0x7B cannot occur
inside a multi-byte UTF-8 encoding, so byte and character splitting agree). -/
def braceSplitAux (acc : List Char) : List Char → Option (List Char × List Char)
  | [] => none
  | c :: cs =>
    if c = braceChar then some (acc.reverse, c :: cs)
    else braceSplitAux (c :: acc) cs

def braceSplit (s : String) : Option (String × String) :=
  (braceSplitAux [] s.toList).map fun p => (String.mk p.1, String.mk p.2)

/-- `is_debug_jsonrpc_line` (claude_core.rs lines 228-249), parametrized over
serde_json's parser `parseJson`. -/
def is_debug_jsonrpc_line (parseJson : String → Option Json) (line : String) : Bool :=
  let trimmed := rustTrim (stripAnsi line)
  if trimmed = "" then false
  else
    match braceSplit trimmed with
    | none => false
    | some (lead, jsonPart) =>
      isServerToken lead &&
        match parseJson jsonPart with
        | some v => is_jsonrpc_payload v
        | none => false

/-- Rust `str::lines`: split on `\n`, dropping one trailing `\r` per line and
the final empty segment produced by a trailing newline. -/
def stripTrailingCr (l : List Char) : List Char :=
  match l.reverse with
  | '\r' :: rest => rest.reverse
  | _ => l

def linesOf (s : String) : List String :=
  if s = "" then []
  else
    let parts := s.toList.splitOn '\n'
    let parts := if s.toList.getLast? = some '\n' then parts.dropLast else parts
    parts.map fun part => String.mk (stripTrailingCr part)

/-- `is_debug_jsonrpc_message` (claude_core.rs lines 251-281). -/
def is_debug_jsonrpc_message (parseJson : String → Option Json) (message : String) : Bool :=
  if is_debug_jsonrpc_line parseJson message then true
  else
    let cleaned := stripAnsi message
    let lns := ((linesOf cleaned).map rustTrim).filter fun l => !(l = "")
    match lns with
    | [first, second] =>
      isServerToken first &&
        second.startsWith (String.mk [braceChar]) &&
        (match parseJson second with
         | some v => is_jsonrpc_payload v
         | none => false)
    | _ => false

/-- Rust `str::strip_prefix`: drop an exact leading character sequence. -/
def dropLead : List Char → List Char → Option (List Char)
  | [], s => some s
  | _ :: _, [] => none
  | p :: ps, c :: cs => if p = c then dropLead ps cs else none

def stripLead (lead s : String) : Option String :=
  (dropLead lead.toList s.toList).map fun cs => String.mk cs

/-- `legacy_prefixed_session_id` (claude_core.rs lines 283-290), parametrized
over the uuid crate's `Uuid::parse_str` success predicate `uuidOk`. -/
def legacy_prefixed_session_id (uuidOk : String → Bool) (threadId : String) : Option String :=
  match stripLead "claude-thread-" threadId with
  | some suffix => if uuidOk suffix then some suffix else none
  | none => none

/-- The session argument chosen for the child process. -/
inductive SessionArg where
  | sessionId (s : String) : SessionArg
  | resume (s : String) : SessionArg

/-- Session selection of `send_user_message_core` (claude_core.rs lines
1174-1185): `explicit_session_id` then `resume_session_id`. -/
def selectSessionArg (uuidOk : String → Bool) (threadHasTurns : Bool)
    (threadId : String) : Option SessionArg :=
  let explicitSid : Option String :=
    match legacy_prefixed_session_id uuidOk threadId with
    | some legacy => some legacy
    | none =>
      if !threadHasTurns && uuidOk threadId then some threadId else none
  match explicitSid with
  | some s => some (.sessionId s)
  | none =>
    if !(rustTrim threadId = "") then some (.resume threadId) else none

/-- The command-line form of the selected session argument
(claude_core.rs lines 1216-1220). -/
def sessionArgsOf : Option SessionArg → List String
  | some (.sessionId s) => ["--session-id", s]
  | some (.resume s) => ["--resume", s]
  | none => []

def sessionCliArgs (uuidOk : String → Bool) (threadHasTurns : Bool)
    (threadId : String) : List String :=
  sessionArgsOf (selectSessionArg uuidOk threadHasTurns threadId)

/-- State machine of `shell_words::split` (the POSIX shell tokenizer used by
`parse_cli_args`). -/
inductive SplitState where
  | delim | bslash | unquoted | unqBslash | squote | dquote | dqBslash

/-- One transition of `shell_words::split` per input character; returns the
updated state, the characters appended to the current word, and whether the
current word is flushed before appending. -/
def shellSplitAux : SplitState → List Char → List Char → List (List Char) →
    Except String (List String)
  | .delim, [], _, words => .ok (words.reverse.map fun w => String.mk w.reverse)
  | .delim, c :: cs, word, words =>
    if c = '\'' then shellSplitAux .squote cs word words
    else if c = '"' then shellSplitAux .dquote cs word words
    else if c = '\\' then shellSplitAux .bslash cs word words
    else if c = '\t' || c = ' ' || c = '\n' then shellSplitAux .delim cs word words
    else shellSplitAux .unquoted cs (c :: word) words
  | .bslash, [], word, words =>
    .ok ((('\\' :: word) :: words).reverse.map fun w => String.mk w.reverse)
  | .bslash, c :: cs, word, words =>
    if c = '\n' then shellSplitAux .delim cs word words
    else shellSplitAux .unquoted cs (c :: word) words
  | .unquoted, [], word, words =>
    .ok ((word :: words).reverse.map fun w => String.mk w.reverse)
  | .unquoted, c :: cs, word, words =>
    if c = '\'' then shellSplitAux .squote cs word words
    else if c = '"' then shellSplitAux .dquote cs word words
    else if c = '\\' then shellSplitAux .unqBslash cs word words
    else if c = '\t' || c = ' ' || c = '\n' then shellSplitAux .delim cs [] (word :: words)
    else shellSplitAux .unquoted cs (c :: word) words
  | .unqBslash, [], word, words =>
    .ok ((('\\' :: word) :: words).reverse.map fun w => String.mk w.reverse)
  | .unqBslash, c :: cs, word, words =>
    if c = '\n' then shellSplitAux .unquoted cs word words
    else shellSplitAux .unquoted cs (c :: word) words
  | .squote, [], _, _ => .error "missing closing quote"
  | .squote, c :: cs, word, words =>
    if c = '\'' then shellSplitAux .unquoted cs word words
    else shellSplitAux .squote cs (c :: word) words
  | .dquote, [], _, _ => .error "missing closing quote"
  | .dquote, c :: cs, word, words =>
    if c = '"' then shellSplitAux .unquoted cs word words
    else if c = '\\' then shellSplitAux .dqBslash cs word words
    else shellSplitAux .dquote cs (c :: word) words
  | .dqBslash, [], _, _ => .error "missing closing quote"
  | .dqBslash, c :: cs, word, words =>
    if c = '\n' then shellSplitAux .dquote cs word words
    else if c = '$' || c = '\x60' || c = '"' || c = '\\' then
      shellSplitAux .dquote cs (c :: word) words
    else shellSplitAux .dquote cs (c :: '\\' :: word) words

def shellSplit (s : String) : Except String (List String) :=
  shellSplitAux .delim s.toList [] []

/-- `parse_cli_args` (claude_core.rs lines 182-190): `None`/blank input yields
no arguments; otherwise tokenize the trimmed input with `shell_words::split`
and drop empty tokens. -/
def parse_cli_args (raw : Option String) : Except String (List String) :=
  match raw with
  | some value =>
    if rustTrim value = "" then .ok []
    else
      match shellSplit (rustTrim value) with
      | .ok args => .ok (args.filter fun arg => !(arg = ""))
      | .error e => .error ("Invalid Claude args: " ++ e)
  | none => .ok []

/-- `prepare_command` (claude_core.rs lines 1006-1017): executable is the
configured bin when its trim is non-empty, `"claude"` otherwise; the parsed
extra args are the initial argument list. -/
def prepare_command (bin : Option String) (argsRaw : Option String) :
    Except String (String × List String) :=
  let executable :=
    match bin with
    | some v => if !(rustTrim v = "") then v else "claude"
    | none => "claude"
  (parse_cli_args argsRaw).map fun parsed => (executable, parsed)

/-- Full argument list of the spawned child (claude_core.rs lines 1194-1220):
`prepare_command`'s extra args, then `-p <prompt> --output-format text`, then
the selected session argument. -/
def build_command_args (bin argsRaw : Option String) (prompt : String)
    (uuidOk : String → Bool) (threadHasTurns : Bool) (threadId : String) :
    Except String (String × List String) :=
  match prepare_command bin argsRaw with
  | .ok (exe, base) =>
    .ok (exe, base ++ ["-p", prompt, "--output-format", "text"]
      ++ sessionCliArgs uuidOk threadHasTurns threadId)
  | .error e => .error e

/-- `archived_id_variants` (claude_core.rs lines 111-123). -/
def archived_id_variants (threadId : String) : List String :=
  let trimmed := rustTrim threadId
  if trimmed = "" then []
  else
    match stripLead "claude-thread-" trimmed with
    | some suffix => [trimmed, suffix]
    | none => [trimmed, "claude-thread-" ++ trimmed]

/-- `is_archived_thread_id` (claude_core.rs lines 125-129); the `HashSet` is
modelled as a list of its elements. -/
def is_archived_thread_id (archivedIds : List String) (threadId : String) : Bool :=
  (archived_id_variants threadId).any fun v => archivedIds.contains v

/-- Byte-lexicographic comparison of Rust `String`s (UTF-8 byte order agrees
with scalar-value order). -/
def charListLe : List Char → List Char → Bool
  | [], _ => true
  | _ :: _, [] => false
  | a :: as, b :: bs => if a < b then true else if b < a then false else charListLe as bs

def strLe (a b : String) : Bool := charListLe a.toList b.toList

def insertSortedStr (x : String) : List String → List String
  | [] => [x]
  | y :: ys => if strLe x y then x :: y :: ys else y :: insertSortedStr x ys

def sortStrings (l : List String) : List String :=
  l.foldr insertSortedStr []

/-- Remove duplicates keeping the first occurrence (the element set of the
`HashSet` built in `persist_archived_thread_id_for_workspace`). -/
def dedupSeen : List String → List String → List String
  | _, [] => []
  | seen, x :: xs =>
    if x ∈ seen then dedupSeen seen xs else x :: dedupSeen (x :: seen) xs

def dedupKeepFirst (l : List String) : List String :=
  dedupSeen [] l

/-- `persist_archived_thread_id_for_workspace` (claude_core.rs lines 145-161):
union-merge the id variants into the workspace's entry, sort, rewrite.
The archived-threads snapshot file is modelled as an association list. -/
def persist_archived_thread_id (snapshot : List (String × List String))
    (workspaceId threadId : String) : List (String × List String) :=
  let entry := (lookupKey snapshot workspaceId).getD []
  let merged := sortStrings (dedupKeepFirst (entry ++ archived_id_variants threadId))
  if (lookupKey snapshot workspaceId).isSome then
    snapshot.map fun kv => if kv.1 = workspaceId then (kv.1, merged) else kv
  else
    snapshot ++ [(workspaceId, merged)]

/-- `ClaudeMessageRecord`. -/
structure MessageRec where
  id : String
  role : String
  text : String

/-- `ClaudeTurnRecord`. -/
structure TurnRec where
  id : String
  startedAt : Int
  completedAt : Option Int
  items : List MessageRec

/-- `ClaudeThreadRecord`. -/
structure ThreadRec where
  id : String
  cwd : String
  preview : String
  createdAt : Int
  updatedAt : Int
  name : Option String
  turns : List TurnRec

/-- The in-memory thread store (`HashMap<String, Vec<ClaudeThreadRecord>>`),
modelled as an association list keyed by workspace id. -/
abbrev Store := List (String × List ThreadRec)

/-- `archive_thread_core` (claude_core.rs lines 1525-1539), with the two file
writes assumed successful: write the archive variants, drop matching threads
from the workspace's in-memory list (if present), answer `{ok:true}`. -/
def archive_thread_core (archiveSnapshot : List (String × List String))
    (store : Store) (workspaceId threadId : String) :
    (List (String × List String)) × Store × Except String Bool :=
  let snapshot := persist_archived_thread_id archiveSnapshot workspaceId threadId
  let store : Store := store.map fun kv =>
    if kv.1 = workspaceId then (kv.1, kv.2.filter fun t => !(t.id = threadId)) else kv
  (snapshot, store, .ok true)

/-- Update the first list element satisfying `pred` with `f`
(Rust `iter_mut().find(...)` followed by mutation). -/
def updateFirst (pred : ThreadRec → Bool) (f : ThreadRec → ThreadRec) :
    List ThreadRec → List ThreadRec
  | [] => []
  | t :: ts => if pred t then f t :: ts else t :: updateFirst pred f ts

/-- Field updates applied to an existing thread by the import merge
(claude_core.rs lines 732-754). -/
def applyImport (workspacePath : String) (existing imported : ThreadRec) : ThreadRec :=
  let t := existing
  let t := if t.createdAt ≤ 0 && imported.createdAt > 0 then
      { t with createdAt := imported.createdAt } else t
  let t := if imported.updatedAt > t.updatedAt then
      let t := { t with updatedAt := imported.updatedAt }
      let t := if rustTrim t.preview = "" then { t with preview := imported.preview } else t
      if !imported.turns.isEmpty then { t with turns := imported.turns } else t
    else t
  let t := if !(t.cwd = workspacePath) then { t with cwd := workspacePath } else t
  if t.turns.isEmpty && !imported.turns.isEmpty then { t with turns := imported.turns } else t

/-- One iteration of the import-merge loop of
`import_history_threads_for_workspace` (claude_core.rs lines 722-762), for a
thread that passed the archive check: force `cwd`, update an existing thread
matched by exact id or by `claude-thread-<id>`, or append the import. -/
def mergeOne (workspacePath : String) (threads : List ThreadRec)
    (imported : ThreadRec) : List ThreadRec :=
  let imported := { imported with cwd := workspacePath }
  let legacyId := "claude-thread-" ++ imported.id
  if threads.any fun t => t.id = imported.id || t.id = legacyId then
    updateFirst (fun t => t.id = imported.id || t.id = legacyId)
      (fun t => applyImport workspacePath t imported) threads
  else threads ++ [imported]

/-- The import-merge loop (claude_core.rs lines 722-762): threads whose id is
archived in either variant are skipped, the rest are merged in order. -/
def mergeImportedThreads (archivedIds : List String) (workspacePath : String)
    (threads : List ThreadRec) : List ThreadRec → List ThreadRec
  | [] => threads
  | imported :: rest =>
    if is_archived_thread_id archivedIds imported.id then
      mergeImportedThreads archivedIds workspacePath threads rest
    else
      mergeImportedThreads archivedIds workspacePath
        (mergeOne workspacePath threads imported) rest

/-- UTF-8 encoded size of a character (Rust `char::len_utf8`). -/
def charBytes (c : Char) : Nat :=
  if c.toNat < 0x80 then 1
  else if c.toNat < 0x800 then 2
  else if c.toNat < 0x10000 then 3
  else 4

/-- UTF-8 byte length of a character list (Rust `str::len`). -/
def utf8Len (l : List Char) : Nat :=
  (l.map charBytes).sum

/-- Rust byte slicing `&s[..n]`: take characters totalling exactly `n` bytes;
`none` models the panic when `n` is not a character boundary (or exceeds the
length). -/
def takeBytes (n : Nat) : List Char → Option (List Char)
  | [] => if n = 0 then some [] else none
  | c :: cs =>
    if n = 0 then some []
    else if charBytes c ≤ n then (takeBytes (n - charBytes c) cs).map fun l => c :: l
    else none

/-- The trimmed, newline-replaced text built by `preview_from_text`
(claude_core.rs line 299). -/
def single_line_of (text : String) : List Char :=
  (rustTrim text).toList.map fun c => if c = '\n' then ' ' else c

/-- `preview_from_text` (claude_core.rs lines 298-304), with Rust byte
semantics: `len()` is the UTF-8 byte length and `&s[..117]` is a byte slice
that panics (`none`) off a character boundary. -/
def preview_from_text (text : String) : Option String :=
  let sl := single_line_of text
  if utf8Len sl ≤ 120 then some (String.mk sl)
  else (takeBytes 117 sl).map fun cs => String.mk cs ++ "..."

/-- i64 bounds for `saturating_add`. -/
def i64Max : Int := 2 ^ 63 - 1

def i64Min : Int := -(2 ^ 63)

def satAddI64 (a b : Int) : Int :=
  max (min (a + b) i64Max) i64Min

/-- The `sessionId` guard of `parse_claude_history_thread_file`
(claude_core.rs lines 567-572): the record is skipped when it carries a
string `sessionId` whose trim is empty or differs from the thread id. -/
def session_id_skip (record : Json) (threadId : String) : Bool :=
  match (record.getField "sessionId").bind Json.asStr with
  | some sid =>
    let s := rustTrim sid
    s = "" || !(s = threadId)
  | none => false

/-- Timestamp/cwd state threaded through the record loop of
`parse_claude_history_thread_file`. -/
structure HistState where
  cwd : String
  createdAt : Option Int
  updatedAt : Option Int
  counter : Int

/-- The parsed `timestamp` of a record
(`record.get("timestamp").and_then(as_str).and_then(parse_rfc3339_ms)`),
with chrono's RFC3339 parser abstracted as `parseTs`. -/
def tsParsedOf (parseTs : String → Option Int) (record : Json) : Option Int :=
  ((record.getField "timestamp").bind Json.asStr).bind parseTs

/-- One iteration of the record loop of `parse_claude_history_thread_file`
restricted to the claims' concerns (claude_core.rs lines 567-592): the
`sessionId` skip, the `cwd` update, the `createdAt`/`updatedAt` update and
the effective timestamp.  Returns the new state and, for a processed record,
its effective timestamp. -/
def history_record_step (parseTs : String → Option Int) (now : Int)
    (threadId : String) (st : HistState) (record : Json) : HistState × Option Int :=
  if session_id_skip record threadId then (st, none)
  else
    let st :=
      match (record.getField "cwd").bind Json.asStr with
      | some recordCwd =>
        if !(rustTrim recordCwd = "") then { st with cwd := recordCwd } else st
      | none => st
    match tsParsedOf parseTs record with
    | some t =>
      ({ st with
          createdAt := some ((st.createdAt.map fun v => min v t).getD t)
          updatedAt := some ((st.updatedAt.map fun v => max v t).getD t) },
        some t)
    | none =>
      let counter := st.counter + 1
      ({ st with counter := counter },
        some (satAddI64 (st.updatedAt.getD now) counter))

/-- State of the stdout streaming loop of `send_user_message_core`
(claude_core.rs lines 1281-1377): the aggregated answer text, the pending
lone server token, and the `item/agentMessage/delta` payloads emitted so far. -/
structure StreamState where
  aggregated : String
  pending : Option String
  deltas : List String

def StreamState.initial : StreamState :=
  { aggregated := "", pending := none, deltas := [] }

/-- Append one payload line: `delta = line` when the aggregate is empty and
`"\n" + line` otherwise; the delta is both accumulated and emitted. -/
def emitDelta (st : StreamState) (line : String) : StreamState :=
  let delta := if st.aggregated = "" then line else "\n" ++ line
  { st with aggregated := st.aggregated ++ delta, deltas := st.deltas ++ [delta] }

/-- Classification of the current normalized line (claude_core.rs lines
1326-1350): stash a bare server token, drop a diagnostic line, emit payload. -/
def processCurrent (parseJson : String → Option Json) (st : StreamState)
    (norm : String) : StreamState :=
  if isServerToken norm then { st with pending := some norm }
  else if is_debug_jsonrpc_line parseJson norm then st
  else emitDelta st norm

/-- One stdout line of the streaming loop (claude_core.rs lines 1296-1350):
normalize, drop empties, resolve a pending server token via the two-line
diagnostic lookahead, then classify the current line. -/
def processLine (parseJson : String → Option Json) (st : StreamState)
    (rawLine : String) : StreamState :=
  let norm := rustTrim (stripAnsi rawLine)
  if norm = "" then st
  else
    match st.pending with
    | some tok =>
      let candidate := tok ++ "\n" ++ norm
      if is_debug_jsonrpc_message parseJson candidate then
        { st with pending := none }
      else
        processCurrent parseJson (emitDelta { st with pending := none } tok) norm
    | none => processCurrent parseJson st norm

/-- EOF handling (claude_core.rs lines 1360-1377): flush a pending server
token as a final delta. -/
def finishStream (st : StreamState) : StreamState :=
  match st.pending with
  | some tok => emitDelta { st with pending := none } tok
  | none => st

/-- The whole streaming loop on a finite stdout line sequence. -/
def runStream (parseJson : String → Option Json) (stdoutLines : List String) :
    StreamState :=
  finishStream (stdoutLines.foldl (processLine parseJson) StreamState.initial)

def joinAll (l : List String) : String :=
  l.foldl (fun a b => a ++ b) ""

/-- Outcome of the synchronous prefix of `send_user_message_core`: the store
after the call, the methods of the events emitted (in order), and the result. -/
structure SendOutcome where
  store : Store
  events : List String
  result : Except String String

/-- Synchronous prefix of `send_user_message_core` (claude_core.rs lines
1053-1158): the empty-input guard, workspace resolution
(`resolve_workspace_context`, erroring `workspace not found`), the store
mutation appending the new turn, and the four initial events.  `now` and the
generated ids are parameters; streaming is modelled separately by
`runStream`. -/
def send_user_message_sync (workspaces : List (String × String)) (store : Store)
    (workspaceId threadId text : String) (images : Option (List String))
    (now : Int) (turnId userItemId assistantItemId : String) : SendOutcome :=
  if rustTrim text = "" && ((images.map fun items => items.isEmpty).getD true) then
    { store := store, events := [], result := .error "empty user message" }
  else
    match lookupKey workspaces workspaceId with
    | none => { store := store, events := [], result := .error "workspace not found" }
    | some _path =>
      match lookupKey store workspaceId with
      | none => { store := store, events := [], result := .error "thread not found" }
      | some threads =>
        if threads.any fun t => t.id = threadId then
          let newTurn : TurnRec :=
            { id := turnId, startedAt := now, completedAt := none,
              items := [
                { id := userItemId, role := "user", text := text },
                { id := assistantItemId, role := "assistant", text := "" }] }
          let store : Store := store.map fun kv =>
            if kv.1 = workspaceId then
              (kv.1, updateFirst (fun t => t.id = threadId)
                (fun t => { t with updatedAt := now, turns := t.turns ++ [newTurn] }) kv.2)
            else kv
          { store := store,
            events := ["turn/started", "item/started", "item/completed", "item/started"],
            result := .ok turnId }
        else
          { store := store, events := [], result := .error "thread not found" }

theorem legacy_none_of_no_valid_suffix (uuidOk : String → Bool) (threadId : String)
    (hno : ∀ suffix, stripLead "claude-thread-" threadId = some suffix →
      uuidOk suffix = false) :
    legacy_prefixed_session_id uuidOk threadId = none := by
  unfold legacy_prefixed_session_id
  cases h : stripLead "claude-thread-" threadId with
  | none => rfl
  | some s => simp [hno s h]

/-- Claim C1: the session argument passed to the child is selected by, in
order: a `claude-thread-` prefix with a valid UUID suffix yields
`--session-id <suffix>`; else a turn-less thread whose id parses as a UUID
yields `--session-id <thread id>`; else a non-blank thread id yields
`--resume <thread id>`; else no session argument.  `uuidOk` abstracts
`Uuid::parse_str`. -/
theorem session_argument_selection (uuidOk : String → Bool) (threadId : String)
    (threadHasTurns : Bool) :
    (∀ suffix, stripLead "claude-thread-" threadId = some suffix →
      uuidOk suffix = true →
      sessionCliArgs uuidOk threadHasTurns threadId = ["--session-id", suffix])
    ∧ ((∀ suffix, stripLead "claude-thread-" threadId = some suffix →
          uuidOk suffix = false) →
        threadHasTurns = false → uuidOk threadId = true →
        sessionCliArgs uuidOk threadHasTurns threadId = ["--session-id", threadId])
    ∧ ((∀ suffix, stripLead "claude-thread-" threadId = some suffix →
          uuidOk suffix = false) →
        (threadHasTurns = true ∨ uuidOk threadId = false) →
        ¬(rustTrim threadId = "") →
        sessionCliArgs uuidOk threadHasTurns threadId = ["--resume", threadId])
    ∧ ((∀ suffix, stripLead "claude-thread-" threadId = some suffix →
          uuidOk suffix = false) →
        (threadHasTurns = true ∨ uuidOk threadId = false) →
        rustTrim threadId = "" →
        sessionCliArgs uuidOk threadHasTurns threadId = []) := by
  refine ⟨?_, ?_, ?_, ?_⟩
  · intro suffix hs hu
    simp [sessionCliArgs, selectSessionArg, legacy_prefixed_session_id, hs, hu,
      sessionArgsOf]
  · intro hno hht hu
    have hleg := legacy_none_of_no_valid_suffix uuidOk threadId hno
    simp [sessionCliArgs, selectSessionArg, hleg, hht, hu, sessionArgsOf]
  · intro hno hcase htrim
    have hleg := legacy_none_of_no_valid_suffix uuidOk threadId hno
    rcases hcase with h | h <;>
      simp [sessionCliArgs, selectSessionArg, hleg, h, htrim, sessionArgsOf]
  · intro hno hcase htrim
    have hleg := legacy_none_of_no_valid_suffix uuidOk threadId hno
    rcases hcase with h | h <;>
      simp [sessionCliArgs, selectSessionArg, hleg, h, htrim, sessionArgsOf]

theorem session_argument_selection_witness :
    sessionCliArgs (fun s => s == "u") true "claude-thread-u" = ["--session-id", "u"]
    ∧ sessionCliArgs (fun _ => false) true "my-thread" = ["--resume", "my-thread"] := by
  constructor
  · exact (session_argument_selection (fun s => s == "u") "claude-thread-u" true).1
      "u" (by decide) (by decide)
  · exact (session_argument_selection (fun _ => false) "my-thread" true).2.2.1
      (fun _ _ => rfl) (Or.inl rfl) (by decide)

/-- Claim C2 is false on the code: the configured extra args are added by
`prepare_command` before the task appends `-p <prompt> --output-format text`
and the session argument, so they come first, not last.  Concretely, with
extra args `--verbose`, prompt `hi` and a `--resume t` session argument, the
child receives `--verbose` first, not last. -/
theorem command_args_order_counterexample :
    build_command_args none (some "--verbose") "hi" (fun _ => false) true "t"
      = .ok ("claude", ["--verbose", "-p", "hi", "--output-format", "text", "--resume", "t"])
    ∧ ["--verbose", "-p", "hi", "--output-format", "text", "--resume", "t"]
      ≠ ["-p", "hi", "--output-format", "text", "--resume", "t", "--verbose"] := by
  constructor
  · rfl
  · decide

/-- Claim C2 (amended): the child's argument list is the configured extra
args (parsed with POSIX shell tokenization) first, followed by
`-p <prompt> --output-format text` and then the selected session argument. -/
theorem command_args_order (bin argsRaw : Option String) (prompt : String)
    (uuidOk : String → Bool) (threadHasTurns : Bool) (threadId : String)
    (exe : String) (args : List String)
    (h : build_command_args bin argsRaw prompt uuidOk threadHasTurns threadId
      = .ok (exe, args)) :
    ∃ extra, parse_cli_args argsRaw = .ok extra ∧
      args = extra ++ ["-p", prompt, "--output-format", "text"]
        ++ sessionCliArgs uuidOk threadHasTurns threadId := by
  unfold build_command_args prepare_command at h
  cases hp : parse_cli_args argsRaw with
  | ok extra =>
    refine ⟨extra, rfl, ?_⟩
    rw [hp] at h
    simp only [Except.map] at h
    cases h
    rfl
  | error e =>
    rw [hp] at h
    simp only [Except.map] at h
    cases h

theorem command_args_order_witness :
    ∃ extra, parse_cli_args (some "--verbose") = .ok extra ∧
      ["--verbose", "-p", "hi", "--output-format", "text"]
        = extra ++ ["-p", "hi", "--output-format", "text"]
          ++ sessionCliArgs (fun _ => false) true "" :=
  command_args_order none (some "--verbose") "hi" (fun _ => false) true ""
    "claude" ["--verbose", "-p", "hi", "--output-format", "text"] (by rfl)

/-- Claim C3 is false on the code: a record whose `sessionId` is present but
whitespace-only IS skipped (the guard also fires when the trimmed session id
is empty), contrary to the claim's final clause. -/
theorem session_skip_counterexample :
    session_id_skip (Json.obj [("sessionId", Json.str "  ")]) "t" = true
    ∧ rustTrim "  " = "" := by
  constructor
  · rfl
  · rfl

/-- Claim C3 (amended): a record is skipped because of its session id exactly
when it carries a string `sessionId` field whose trimmed value is empty or
differs from the thread id; a skipped record leaves the parser state
untouched. -/
theorem session_skip_characterization (record : Json) (threadId : String) :
    (session_id_skip record threadId = true ↔
      ∃ sid, (record.getField "sessionId").bind Json.asStr = some sid ∧
        (rustTrim sid = "" ∨ rustTrim sid ≠ threadId))
    ∧ (∀ (parseTs : String → Option Int) (now : Int) (st : HistState),
        session_id_skip record threadId = true →
        history_record_step parseTs now threadId st record = (st, none)) := by
  constructor
  · unfold session_id_skip
    cases h : (record.getField "sessionId").bind Json.asStr with
    | none => simp
    | some sid =>
      simp only [h, Option.some.injEq]
      constructor
      · intro hb
        refine ⟨sid, rfl, ?_⟩
        rcases Bool.or_eq_true_iff.mp hb with h1 | h1
        · exact Or.inl (by simpa using h1)
        · exact Or.inr (by simpa using h1)
      · rintro ⟨sid', hsid', hcase⟩
        cases hsid'
        rcases hcase with h1 | h1 <;> simp [h1]
  · intro parseTs now st hskip
    simp [history_record_step, hskip]

theorem session_skip_witness :
    (∃ sid, ((Json.obj [("sessionId", Json.str "other")]).getField "sessionId").bind
        Json.asStr = some sid ∧
      (rustTrim sid = "" ∨ rustTrim sid ≠ "t"))
    ∧ history_record_step (fun _ => none) 0 "t"
        { cwd := "", createdAt := none, updatedAt := none, counter := 0 }
        (Json.obj [("sessionId", Json.str "other")])
      = ({ cwd := "", createdAt := none, updatedAt := none, counter := 0 }, none) := by
  constructor
  · exact (session_skip_characterization (Json.obj [("sessionId", Json.str "other")]) "t").1.mp
      (by rfl)
  · exact (session_skip_characterization (Json.obj [("sessionId", Json.str "other")]) "t").2
      (fun _ => none) 0 _ (by rfl)

/-- Claim C4 is false on the code: the synthesized timestamp base is
`updatedAt` when any timestamp was parsed (falling back to `now` only when
none was), not `max(updatedAt, now)`.  With an earlier parsed timestamp 5 and
wall clock 100, the next synthesized timestamp is 6: not `max(5,100)+1 = 101`
and below the current wall clock. -/
theorem synthesized_timestamp_counterexample :
    (history_record_step (fun s => if s = "T" then some 5 else none) 100 "t"
        ((history_record_step (fun s => if s = "T" then some 5 else none) 100 "t"
          { cwd := "/w", createdAt := none, updatedAt := none, counter := 0 }
          (Json.obj [("timestamp", Json.str "T")])).1)
        (Json.obj [("type", Json.str "user")])).2 = some 6
    ∧ (6 : Int) < 100
    ∧ (6 : Int) ≠ max 5 100 + 1 := by
  refine ⟨?_, by norm_num, by norm_num⟩
  rfl

/-- Claim C4 (amended): for a non-skipped record with no parseable RFC3339
timestamp, the synthesized effective timestamp is `updatedAt`-so-far (or
`now` when no timestamp was ever parsed in this file) saturating-plus a
per-file counter that increments on each synthesized record; consecutive
synthesized timestamps are strictly increasing while no i64 saturation
occurs, but they can lie below the current wall clock. -/
theorem synthesized_timestamp_formula (parseTs : String → Option Int) (now : Int)
    (threadId : String) (st : HistState) (record record' : Json)
    (hskip : session_id_skip record threadId = false)
    (hts : tsParsedOf parseTs record = none)
    (hskip' : session_id_skip record' threadId = false)
    (hts' : tsParsedOf parseTs record' = none) :
    (history_record_step parseTs now threadId st record).2
      = some (satAddI64 (st.updatedAt.getD now) (st.counter + 1))
    ∧ (history_record_step parseTs now threadId st record).1.counter = st.counter + 1
    ∧ (history_record_step parseTs now threadId st record).1.updatedAt = st.updatedAt
    ∧ (history_record_step parseTs now threadId
          (history_record_step parseTs now threadId st record).1 record').2
        = some (satAddI64 (st.updatedAt.getD now) (st.counter + 2))
    ∧ (st.updatedAt.getD now + st.counter + 2 ≤ i64Max →
        i64Min ≤ st.updatedAt.getD now + st.counter + 1 →
        satAddI64 (st.updatedAt.getD now) (st.counter + 2)
          > satAddI64 (st.updatedAt.getD now) (st.counter + 1)) := by
  have general : ∀ (s : HistState) (r : Json), session_id_skip r threadId = false →
      tsParsedOf parseTs r = none →
      (history_record_step parseTs now threadId s r).2
          = some (satAddI64 (s.updatedAt.getD now) (s.counter + 1))
        ∧ (history_record_step parseTs now threadId s r).1.counter = s.counter + 1
        ∧ (history_record_step parseTs now threadId s r).1.updatedAt = s.updatedAt := by
    intro s r hs ht
    unfold history_record_step
    rw [if_neg (by simp [hs])]
    cases hc : (r.getField "cwd").bind Json.asStr with
    | none => simp [ht]
    | some c =>
      by_cases hblank : rustTrim c = ""
      · simp [hc, hblank, ht]
      · simp [hc, hblank, ht]
  obtain ⟨e1, e2, e3⟩ := general st record hskip hts
  obtain ⟨f1, f2, f3⟩ :=
    general (history_record_step parseTs now threadId st record).1 record' hskip' hts'
  refine ⟨e1, e2, e3, ?_, ?_⟩
  · rw [f1, e2, e3]
    have : st.counter + 1 + 1 = st.counter + 2 := by ring
    rw [this]
  · intro h1 h2
    unfold satAddI64
    have e1 : min (st.updatedAt.getD now + (st.counter + 1)) i64Max
        = st.updatedAt.getD now + (st.counter + 1) := by omega
    have e2 : min (st.updatedAt.getD now + (st.counter + 2)) i64Max
        = st.updatedAt.getD now + (st.counter + 2) := by omega
    rw [e1, e2]
    omega

theorem synthesized_timestamp_formula_witness :
    (history_record_step (fun _ => none) 100 "t"
        { cwd := "", createdAt := none, updatedAt := none, counter := 0 }
        (Json.obj [])).2 = some (satAddI64 ((none : Option Int).getD 100) 1)
    ∧ satAddI64 ((none : Option Int).getD 100) 2 > satAddI64 ((none : Option Int).getD 100) 1 := by
  have h := synthesized_timestamp_formula (fun _ => none) 100 "t"
    { cwd := "", createdAt := none, updatedAt := none, counter := 0 }
    (Json.obj []) (Json.obj []) (by rfl) (by rfl) (by rfl) (by rfl)
  exact ⟨h.1, h.2.2.2.2 (by norm_num [i64Max]) (by norm_num [i64Min])⟩

theorem takeBytes_utf8Len :
    ∀ (l : List Char) (n : Nat) (r : List Char), takeBytes n l = some r → utf8Len r = n := by
  intro l
  induction l with
  | nil =>
    intro n r h
    unfold takeBytes at h
    by_cases h0 : n = 0
    · rw [if_pos h0] at h
      cases h
      simp [utf8Len, h0]
    · rw [if_neg h0] at h
      cases h
  | cons c cs ih =>
    intro n r h
    unfold takeBytes at h
    by_cases h0 : n = 0
    · rw [if_pos h0] at h
      cases h
      simp [utf8Len, h0]
    · rw [if_neg h0] at h
      by_cases hsz : charBytes c ≤ n
      · rw [if_pos hsz] at h
        cases hrec : takeBytes (n - charBytes c) cs with
        | none => rw [hrec] at h; cases h
        | some r' =>
          rw [hrec] at h
          cases h
          have := ih (n - charBytes c) r' hrec
          simp only [utf8Len, List.map_cons, List.sum_cons] at *
          omega
      · rw [if_neg hsz] at h
        cases h

theorem takeBytes_mem :
    ∀ (l : List Char) (n : Nat) (r : List Char), takeBytes n l = some r →
      ∀ c ∈ r, c ∈ l := by
  intro l
  induction l with
  | nil =>
    intro n r h
    unfold takeBytes at h
    by_cases h0 : n = 0
    · rw [if_pos h0] at h
      cases h
      intro c hc
      cases hc
    · rw [if_neg h0] at h
      cases h
  | cons c cs ih =>
    intro n r h
    unfold takeBytes at h
    by_cases h0 : n = 0
    · rw [if_pos h0] at h
      cases h
      intro d hd
      cases hd
    · rw [if_neg h0] at h
      by_cases hsz : charBytes c ≤ n
      · rw [if_pos hsz] at h
        cases hrec : takeBytes (n - charBytes c) cs with
        | none => rw [hrec] at h; cases h
        | some r' =>
          rw [hrec] at h
          cases h
          intro d hd
          rcases List.mem_cons.mp hd with rfl | hd'
          · exact List.mem_cons_self _ _
          · exact List.mem_cons_of_mem _ (ih _ _ hrec d hd')
      · rw [if_neg hsz] at h
        cases h

theorem utf8Len_append (a b : List Char) : utf8Len (a ++ b) = utf8Len a + utf8Len b := by
  simp [utf8Len]

theorem newline_not_mem_single_line (text : String) : '\n' ∉ single_line_of text := by
  unfold single_line_of
  intro hmem
  obtain ⟨c, _, hc⟩ := List.mem_map.mp hmem
  by_cases h : c = '\n'
  · rw [if_pos h] at hc
    cases hc
  · rw [if_neg h] at hc
    exact h hc

set_option maxRecDepth 4000 in
/-- Claim C5 is false on the code: `preview_from_text` truncates at byte
offset 117, which panics when that offset is not a character boundary.  On
116 ASCII characters followed by three two-byte characters (122 bytes total),
the slice `&s[..117]` splits a code point. -/
theorem preview_panic_counterexample :
    preview_from_text (String.mk (List.replicate 116 'a' ++ List.replicate 3 'é')) = none
    ∧ utf8Len (single_line_of
        (String.mk (List.replicate 116 'a' ++ List.replicate 3 'é'))) = 122 := by
  constructor
  · decide
  · decide

/-- Claim C5 (amended): `preview_from_text` can panic (modelled as `none`)
when the trimmed single-line text exceeds 120 bytes and byte 117 is not a
character boundary; whenever it returns, the result has UTF-8 length at most
120 bytes and contains no newline, and for single-line text longer than 120
bytes the result is the first 117 bytes followed by `"..."`. -/
theorem preview_from_text_safety (text r : String) (h : preview_from_text text = some r) :
    utf8Len r.toList ≤ 120 ∧ '\n' ∉ r.toList
    ∧ (utf8Len (single_line_of text) > 120 →
        ∃ cs, takeBytes 117 (single_line_of text) = some cs ∧ r = String.mk cs ++ "...") := by
  unfold preview_from_text at h
  by_cases hle : utf8Len (single_line_of text) ≤ 120
  · rw [if_pos hle] at h
    cases h
    refine ⟨hle, newline_not_mem_single_line text, ?_⟩
    intro habs
    omega
  · rw [if_neg hle] at h
    cases htake : takeBytes 117 (single_line_of text) with
    | none =>
      rw [htake] at h
      cases h
    | some cs =>
      rw [htake] at h
      cases h
      have hlist : (String.mk cs ++ "...").toList = cs ++ "...".toList := rfl
      refine ⟨?_, ?_, ?_⟩
      · rw [hlist, utf8Len_append]
        have h117 := takeBytes_utf8Len _ _ _ htake
        have hdots : utf8Len "...".toList = 3 := by decide
        omega
      · rw [hlist]
        intro hmem
        rcases List.mem_append.mp hmem with h1 | h1
        · exact newline_not_mem_single_line text (takeBytes_mem _ _ _ htake _ h1)
        · simp at h1
      · intro _
        exact ⟨cs, rfl, rfl⟩

theorem preview_from_text_safety_witness :
    utf8Len "hello".toList ≤ 120 ∧ '\n' ∉ "hello".toList
    ∧ (utf8Len (single_line_of "hello") > 120 →
        ∃ cs, takeBytes 117 (single_line_of "hello") = some cs
          ∧ "hello" = String.mk cs ++ "...") :=
  preview_from_text_safety "hello" "hello" (by rfl)

theorem joinAll_append_one (ds : List String) (d : String) :
    joinAll (ds ++ [d]) = joinAll ds ++ d := by
  simp [joinAll, List.foldl_append]

theorem emitDelta_join (st : StreamState) (line : String)
    (h : st.aggregated = joinAll st.deltas) :
    (emitDelta st line).aggregated = joinAll (emitDelta st line).deltas := by
  unfold emitDelta
  simp only [joinAll_append_one, h]

theorem processCurrent_join (parseJson : String → Option Json) (st : StreamState)
    (norm : String) (h : st.aggregated = joinAll st.deltas) :
    (processCurrent parseJson st norm).aggregated
      = joinAll (processCurrent parseJson st norm).deltas := by
  unfold processCurrent
  by_cases h1 : isServerToken norm = true
  · simpa [h1] using h
  · simp only [h1]
    by_cases h2 : is_debug_jsonrpc_line parseJson norm = true
    · simpa [h2] using h
    · simpa [h2] using emitDelta_join st norm h

theorem processLine_join (parseJson : String → Option Json) (st : StreamState)
    (rawLine : String) (h : st.aggregated = joinAll st.deltas) :
    (processLine parseJson st rawLine).aggregated
      = joinAll (processLine parseJson st rawLine).deltas := by
  unfold processLine
  by_cases hempty : rustTrim (stripAnsi rawLine) = ""
  · simpa [hempty] using h
  · simp only [hempty]
    cases hp : st.pending with
    | none =>
      simpa using processCurrent_join parseJson st _ h
    | some tok =>
      simp only []
      by_cases hd : is_debug_jsonrpc_message parseJson
          (tok ++ "\n" ++ rustTrim (stripAnsi rawLine)) = true
      · simpa [hd] using h
      · simp only [hd, if_neg, Bool.false_eq_true, if_false]
        exact processCurrent_join parseJson _ _ (emitDelta_join _ tok h)

theorem finishStream_join (st : StreamState) (h : st.aggregated = joinAll st.deltas) :
    (finishStream st).aggregated = joinAll (finishStream st).deltas := by
  unfold finishStream
  cases hp : st.pending with
  | none => exact h
  | some tok => exact emitDelta_join _ tok h

/-- Claim C8: for every stdout line sequence, the aggregated text used at
`item/completed` equals the in-order concatenation of all emitted
`item/agentMessage/delta` payloads, each delta being the line itself when the
aggregate was empty and `"\n"` followed by the line otherwise. -/
theorem aggregated_eq_join_of_deltas (parseJson : String → Option Json)
    (stdoutLines : List String) :
    (runStream parseJson stdoutLines).aggregated
      = joinAll (runStream parseJson stdoutLines).deltas := by
  unfold runStream
  have main : ∀ (ls : List String) (st : StreamState),
      st.aggregated = joinAll st.deltas →
      (ls.foldl (processLine parseJson) st).aggregated
        = joinAll ((ls.foldl (processLine parseJson) st).deltas) := by
    intro ls
    induction ls with
    | nil => intro st h; exact h
    | cons l rest ih =>
      intro st h
      exact ih _ (processLine_join parseJson st l h)
  exact finishStream_join _ (main stdoutLines StreamState.initial rfl)

/-- Claim C9: `sendUserMessage` answers the EmptyInput error exactly when the
text trims to empty and the images list is absent or empty, and in that case
it returns before resolving the workspace: the thread store is unchanged and
no event is emitted. -/
theorem empty_input_rejection (workspaces : List (String × String)) (store : Store)
    (workspaceId threadId text : String) (images : Option (List String))
    (now : Int) (turnId userItemId assistantItemId : String) :
    ((send_user_message_sync workspaces store workspaceId threadId text images
        now turnId userItemId assistantItemId).result = .error "empty user message"
      ↔ (rustTrim text = "" ∧ (images = none ∨ images = some [])))
    ∧ ((rustTrim text = "" ∧ (images = none ∨ images = some [])) →
        (send_user_message_sync workspaces store workspaceId threadId text images
          now turnId userItemId assistantItemId).store = store
        ∧ (send_user_message_sync workspaces store workspaceId threadId text images
          now turnId userItemId assistantItemId).events = []) := by
  have hguard : (decide (rustTrim text = "")
        && ((images.map fun items => items.isEmpty).getD true)) = true
      ↔ (rustTrim text = "" ∧ (images = none ∨ images = some [])) := by
    cases images with
    | none => simp
    | some l => cases l with
      | nil => simp
      | cons a as => simp
  by_cases hb : (decide (rustTrim text = "")
      && ((images.map fun items => items.isEmpty).getD true)) = true
  · have hres : send_user_message_sync workspaces store workspaceId threadId text images
          now turnId userItemId assistantItemId
        = { store := store, events := [], result := .error "empty user message" } := by
      unfold send_user_message_sync
      rw [if_pos hb]
    refine ⟨?_, fun _ => by rw [hres]; exact ⟨rfl, rfl⟩⟩
    rw [hres]
    simpa using hguard.mp hb
  · have hne : (send_user_message_sync workspaces store workspaceId threadId text images
          now turnId userItemId assistantItemId).result ≠ .error "empty user message" := by
      unfold send_user_message_sync
      rw [if_neg hb]
      cases h1 : lookupKey workspaces workspaceId with
      | none =>
        intro h
        injection h with h
        exact absurd h (by decide)
      | some p =>
        cases h2 : lookupKey store workspaceId with
        | none =>
          intro h
          injection h with h
          exact absurd h (by decide)
        | some threads =>
          by_cases h3 : threads.any (fun t => t.id = threadId) = true
          · simp only [h3, if_true]
            intro h
            cases h
          · simp only [h3, if_false, Bool.false_eq_true]
            intro h
            injection h with h
            exact absurd h (by decide)
    refine ⟨⟨fun h => absurd h hne, fun h => absurd (hguard.mpr h) hb⟩,
      fun h => absurd (hguard.mpr h) hb⟩

theorem empty_input_rejection_witness :
    (send_user_message_sync [("w", "/w")] [] "w" "t" "  " none 0 "turn" "u" "a").result
      = .error "empty user message"
    ∧ (send_user_message_sync [("w", "/w")] [] "w" "t" "  " none 0 "turn" "u" "a").events
      = [] :=
  ⟨(empty_input_rejection [("w", "/w")] [] "w" "t" "  " none 0 "turn" "u" "a").1.mpr
      ⟨by decide, Or.inl rfl⟩,
    ((empty_input_rejection [("w", "/w")] [] "w" "t" "  " none 0 "turn" "u" "a").2
      ⟨by decide, Or.inl rfl⟩).2⟩

theorem lookupKey_map_update {β : Type} (l : List (String × β)) (k w : String) (g : β → β) :
    lookupKey (l.map fun kv => if kv.1 = k then (kv.1, g kv.2) else kv) w
      = if w = k then (lookupKey l w).map g else lookupKey l w := by
  induction l with
  | nil => simp only [List.map_nil, lookupKey]; split <;> rfl
  | cons kv rest ih =>
    obtain ⟨a, b⟩ := kv
    simp only [List.map_cons]
    by_cases hak : a = k
    · rw [show (if (a, b).1 = k then ((a, b).1, g (a, b).2) else (a, b)) = (a, g b)
        from if_pos hak]
      by_cases haw : a = w
      · have hwk : w = k := haw ▸ hak
        rw [if_pos hwk]
        show (if a = w then some (g b) else
          lookupKey (rest.map fun kv => if kv.1 = k then (kv.1, g kv.2) else kv) w)
          = ((if a = w then some b else lookupKey rest w)).map g
        rw [if_pos haw, if_pos haw]
        rfl
      · have hwk : ¬(w = k) := fun h => haw ((h.trans hak.symm).symm)
        rw [if_neg hwk]
        show (if a = w then some (g b) else
          lookupKey (rest.map fun kv => if kv.1 = k then (kv.1, g kv.2) else kv) w)
          = if a = w then some b else lookupKey rest w
        rw [if_neg haw, if_neg haw, ih, if_neg hwk]
    · rw [show (if (a, b).1 = k then ((a, b).1, g (a, b).2) else (a, b)) = (a, b)
        from if_neg hak]
      by_cases haw : a = w
      · have hwk : ¬(w = k) := fun h => hak (haw.trans h)
        rw [if_neg hwk]
        show (if a = w then some b else
          lookupKey (rest.map fun kv => if kv.1 = k then (kv.1, g kv.2) else kv) w)
          = if a = w then some b else lookupKey rest w
        rw [if_pos haw, if_pos haw]
      · show (if a = w then some b else
          lookupKey (rest.map fun kv => if kv.1 = k then (kv.1, g kv.2) else kv) w)
          = if w = k then (if a = w then some b else lookupKey rest w).map g
            else (if a = w then some b else lookupKey rest w)
        rw [if_neg haw, ih]
        by_cases hwk : w = k
        · rw [if_pos hwk, if_pos hwk, if_neg haw]
        · rw [if_neg hwk, if_neg hwk, if_neg haw]

theorem lookupKey_append_single {β : Type} (l : List (String × β)) (k w : String) (v : β) :
    lookupKey (l ++ [(k, v)]) w
      = if (lookupKey l w).isSome then lookupKey l w
        else if w = k then some v else none := by
  induction l with
  | nil =>
    simp only [List.nil_append, lookupKey, Option.isSome_none, Bool.false_eq_true,
      if_false]
    by_cases hkw : k = w
    · subst hkw
      simp
    · have hwk : ¬(w = k) := fun h => hkw h.symm
      simp [hkw, hwk]
  | cons kv rest ih =>
    obtain ⟨a, b⟩ := kv
    by_cases haw : a = w
    · subst haw
      simp [lookupKey]
    · simp [lookupKey, haw, ih]

theorem mem_insertSortedStr (a x : String) (l : List String) (h : a = x ∨ a ∈ l) :
    a ∈ insertSortedStr x l := by
  induction l with
  | nil =>
    rcases h with rfl | h
    · simp [insertSortedStr]
    · cases h
  | cons y ys ih =>
    unfold insertSortedStr
    by_cases hle : strLe x y = true
    · rw [if_pos hle]
      rcases h with rfl | h
      · exact List.mem_cons_self _ _
      · exact List.mem_cons_of_mem _ h
    · rw [if_neg hle]
      rcases h with rfl | h
      · exact List.mem_cons_of_mem _ (ih (Or.inl rfl))
      · rcases List.mem_cons.mp h with rfl | h'
        · exact List.mem_cons_self _ _
        · exact List.mem_cons_of_mem _ (ih (Or.inr h'))

theorem mem_sortStrings (a : String) (l : List String) (h : a ∈ l) :
    a ∈ sortStrings l := by
  induction l with
  | nil => cases h
  | cons x xs ih =>
    show a ∈ insertSortedStr x (sortStrings xs)
    rcases List.mem_cons.mp h with rfl | h'
    · exact mem_insertSortedStr _ _ _ (Or.inl rfl)
    · exact mem_insertSortedStr _ _ _ (Or.inr (ih h'))

theorem mem_dedupSeen (l : List String) :
    ∀ (seen : List String) (a : String), a ∈ l → a ∉ seen → a ∈ dedupSeen seen l := by
  induction l with
  | nil => intro seen a ha _; cases ha
  | cons x xs ih =>
    intro seen a ha hns
    unfold dedupSeen
    rcases List.mem_cons.mp ha with rfl | hmem
    · rw [if_neg hns]
      exact List.mem_cons_self _ _
    · by_cases hx : x ∈ seen
      · rw [if_pos hx]
        exact ih seen a hmem hns
      · rw [if_neg hx]
        by_cases hax : a = x
        · subst hax
          exact List.mem_cons_self _ _
        · refine List.mem_cons_of_mem _ (ih (x :: seen) a hmem ?_)
          intro hmem2
          rcases List.mem_cons.mp hmem2 with h | h
          · exact hax h
          · exact hns h

theorem mem_dedupKeepFirst (a : String) (l : List String) (h : a ∈ l) :
    a ∈ dedupKeepFirst l :=
  mem_dedupSeen l [] a h (fun hx => by cases hx)

theorem persist_lookup (snapshot : List (String × List String)) (ws tid : String) :
    lookupKey (persist_archived_thread_id snapshot ws tid) ws
      = some (sortStrings (dedupKeepFirst
          (((lookupKey snapshot ws).getD []) ++ archived_id_variants tid))) := by
  unfold persist_archived_thread_id
  by_cases hs : (lookupKey snapshot ws).isSome = true
  · rw [if_pos hs]
    refine Eq.trans
      (lookupKey_map_update snapshot ws ws
        (fun _ => sortStrings (dedupKeepFirst
          (((lookupKey snapshot ws).getD []) ++ archived_id_variants tid)))) ?_
    rw [if_pos rfl]
    cases h : lookupKey snapshot ws with
    | none => rw [h] at hs; cases hs
    | some entry => simp
  · rw [if_neg hs, lookupKey_append_single]
    cases h : lookupKey snapshot ws with
    | none => simp [h]
    | some entry => rw [h] at hs; simp at hs

/-- Claim C10: `archiveThread` never reports NotFound: for every workspace id
and thread id (present or not), it records the archive id variants for the
workspace, removes exactly the threads with the given id (leaving all other
threads and workspaces untouched), and answers `{ok:true}`. -/
theorem archive_thread_never_not_found (archiveSnapshot : List (String × List String))
    (store : Store) (workspaceId threadId : String) :
    (archive_thread_core archiveSnapshot store workspaceId threadId).2.2 = .ok true
    ∧ (∀ v ∈ archived_id_variants threadId,
        v ∈ (lookupKey ((archive_thread_core archiveSnapshot store workspaceId threadId).1)
          workspaceId).getD [])
    ∧ (∀ w, w ≠ workspaceId →
        lookupKey ((archive_thread_core archiveSnapshot store workspaceId threadId).2.1) w
          = lookupKey store w)
    ∧ lookupKey ((archive_thread_core archiveSnapshot store workspaceId
          threadId).2.1) workspaceId
      = (lookupKey store workspaceId).map (List.filter fun t => !(t.id = threadId)) := by
  refine ⟨rfl, ?_, ?_, ?_⟩
  · intro v hv
    show v ∈ (lookupKey (persist_archived_thread_id archiveSnapshot workspaceId
      threadId) workspaceId).getD []
    rw [persist_lookup]
    exact mem_sortStrings _ _ (mem_dedupKeepFirst _ _
      (List.mem_append.mpr (Or.inr hv)))
  · intro w hw
    refine Eq.trans
      (lookupKey_map_update store workspaceId w
        (List.filter fun t => !(t.id = threadId))) ?_
    rw [if_neg hw]
  · refine Eq.trans
      (lookupKey_map_update store workspaceId workspaceId
        (List.filter fun t => !(t.id = threadId))) ?_
    rw [if_pos rfl]

theorem archive_thread_never_not_found_witness :
    (archive_thread_core [] [] "w" "X").2.2 = .ok true
    ∧ "X" ∈ (lookupKey ((archive_thread_core [] [] "w" "X").1) "w").getD [] := by
  refine ⟨(archive_thread_never_not_found [] [] "w" "X").1, ?_⟩
  exact (archive_thread_never_not_found [] [] "w" "X").2.1 "X" (by decide)

theorem bind_asStr_isSome (o : Option Json) :
    (o.bind Json.asStr).isSome = true ↔ ∃ s, o = some (Json.str s) := by
  cases o with
  | none => simp
  | some j => cases j <;> simp [Json.asStr]

theorem braceSplitAux_none (l : List Char) :
    ∀ acc, braceSplitAux acc l = none ↔ braceChar ∉ l := by
  induction l with
  | nil => intro acc; simp [braceSplitAux]
  | cons c cs ih =>
    intro acc
    unfold braceSplitAux
    by_cases hc : c = braceChar
    · simp [hc]
    · rw [if_neg hc, ih]
      constructor
      · intro h hmem
        rcases List.mem_cons.mp hmem with h' | h'
        · exact hc h'.symm
        · exact h h'
      · intro h hmem
        exact h (List.mem_cons_of_mem _ hmem)

theorem braceSplitAux_some (l : List Char) :
    ∀ (acc p r : List Char), braceSplitAux acc l = some (p, r) ↔
      ∃ l1, l = l1 ++ r ∧ p = acc.reverse ++ l1 ∧ braceChar ∉ l1
        ∧ r.head? = some braceChar := by
  induction l with
  | nil =>
    intro acc p r
    constructor
    · intro h
      cases h
    · rintro ⟨l1, hl, _, _, hr⟩
      have : r = [] := by
        cases l1 with
        | nil => exact hl.symm
        | cons a as => cases hl
      subst this
      cases hr
  | cons c cs ih =>
    intro acc p r
    unfold braceSplitAux
    by_cases hc : c = braceChar
    · rw [if_pos hc]
      constructor
      · intro h
        injection h with h
        injection h with h1 h2
        subst h2
        subst h1
        exact ⟨[], by simp, by simp, by simp, by simp [hc]⟩
      · rintro ⟨l1, hl, hp, hnotin, hr⟩
        cases l1 with
        | nil =>
          have hl' : c :: cs = r := hl
          have hp' : p = acc.reverse := by simpa using hp
          rw [hp', hl']
        | cons a as =>
          injection hl with ha _
          have hab : a = braceChar := by rw [← ha, hc]
          exact absurd (List.mem_cons.mpr (Or.inl hab.symm)) hnotin
    · rw [if_neg hc, ih]
      constructor
      · rintro ⟨l1, hl, hp, hnotin, hr⟩
        refine ⟨c :: l1, by rw [hl]; rfl, ?_, ?_, hr⟩
        · rw [hp]
          simp
        · intro hmem
          rcases List.mem_cons.mp hmem with h | h
          · exact hc h.symm
          · exact hnotin h
      · rintro ⟨l1, hl, hp, hnotin, hr⟩
        cases l1 with
        | nil =>
          have hl' : c :: cs = r := hl
          rw [← hl'] at hr
          simp only [List.head?_cons, Option.some.injEq] at hr
          exact absurd hr hc
        | cons a as =>
          injection hl with ha htl
          refine ⟨as, htl, ?_, fun hmem => hnotin (List.mem_cons_of_mem _ hmem), hr⟩
          rw [hp, ha]
          simp

theorem first_brace_unique :
    ∀ (l1 : List Char) (l2 r1 r2 : List Char), l1 ++ r1 = l2 ++ r2 →
      braceChar ∉ l1 → braceChar ∉ l2 →
      r1.head? = some braceChar → r2.head? = some braceChar →
      l1 = l2 ∧ r1 = r2 := by
  intro l1
  induction l1 with
  | nil =>
    intro l2 r1 r2 heq h1 h2 hr1 hr2
    cases l2 with
    | nil => exact ⟨rfl, heq⟩
    | cons b l2' =>
      have heq' : r1 = b :: (l2' ++ r2) := heq
      rw [heq'] at hr1
      simp only [List.head?_cons, Option.some.injEq] at hr1
      exact absurd (List.mem_cons.mpr (Or.inl hr1.symm)) h2
  | cons a l1' ih =>
    intro l2 r1 r2 heq h1 h2 hr1 hr2
    cases l2 with
    | nil =>
      have heq' : a :: (l1' ++ r1) = r2 := heq
      rw [← heq'] at hr2
      simp only [List.head?_cons, Option.some.injEq] at hr2
      exact absurd (List.mem_cons.mpr (Or.inl hr2.symm)) h1
    | cons b l2' =>
      injection heq with hab htl
      obtain ⟨he, hr⟩ := ih l2' r1 r2 htl
        (fun h => h1 (List.mem_cons_of_mem _ h))
        (fun h => h2 (List.mem_cons_of_mem _ h)) hr1 hr2
      exact ⟨by rw [hab, he], hr⟩

/-- Claim C6: `isJsonRpcPayload` holds exactly when the value has a string
`method` field or any `result`/`error` field, AND an `id` or `params` field;
and `isDiagnosticLine` holds exactly when the escape-stripped trimmed line
splits at its first `{` into a server-token prefix and a remainder that
parses as JSON satisfying `isJsonRpcPayload`. -/
theorem jsonrpc_classification (parseJson : String → Option Json) :
    (∀ v : Json, is_jsonrpc_payload v = true ↔
      (((∃ s, v.getField "method" = some (Json.str s))
          ∨ (v.getField "result").isSome = true
          ∨ (v.getField "error").isSome = true)
        ∧ ((v.getField "id").isSome = true ∨ (v.getField "params").isSome = true)))
    ∧ (∀ line : String, is_debug_jsonrpc_line parseJson line = true ↔
        ∃ (lead rest : List Char) (v : Json),
          (rustTrim (stripAnsi line)).toList = lead ++ rest
          ∧ braceChar ∉ lead
          ∧ rest.head? = some braceChar
          ∧ isServerToken (String.mk lead) = true
          ∧ parseJson (String.mk rest) = some v
          ∧ is_jsonrpc_payload v = true) := by
  constructor
  · intro v
    unfold is_jsonrpc_payload
    rw [Bool.and_eq_true, Bool.or_eq_true, Bool.or_eq_true, Bool.or_eq_true,
      bind_asStr_isSome]
    tauto
  · intro line
    unfold is_debug_jsonrpc_line
    by_cases hempty : rustTrim (stripAnsi line) = ""
    · rw [if_pos hempty]
      simp only [Bool.false_eq_true, false_iff]
      rintro ⟨lead, rest, v, hsplit, _, hhead, _⟩
      rw [hempty] at hsplit
      cases rest with
      | nil => cases hhead
      | cons x xs =>
        have hlen := congrArg List.length hsplit
        simp at hlen
        omega
    · rw [if_neg hempty]
      cases hbs : braceSplit (rustTrim (stripAnsi line)) with
      | none =>
        simp only [Bool.false_eq_true, false_iff]
        unfold braceSplit at hbs
        have hnone : braceSplitAux [] (rustTrim (stripAnsi line)).toList = none := by
          cases h : braceSplitAux [] (rustTrim (stripAnsi line)).toList with
          | none => rfl
          | some p => rw [h] at hbs; cases hbs
        have hnotin := (braceSplitAux_none _ []).mp hnone
        rintro ⟨lead, rest, v, hsplit, _, hhead, _⟩
        apply hnotin
        rw [hsplit]
        apply List.mem_append.mpr
        right
        cases rest with
        | nil => cases hhead
        | cons x xs =>
          simp only [List.head?_cons, Option.some.injEq] at hhead
          exact hhead ▸ List.mem_cons_self x xs
      | some pair =>
        obtain ⟨leadStr, restStr⟩ := pair
        unfold braceSplit at hbs
        cases haux : braceSplitAux [] (rustTrim (stripAnsi line)).toList with
        | none => rw [haux] at hbs; cases hbs
        | some p =>
          obtain ⟨p1, p2⟩ := p
          rw [haux] at hbs
          have hbs' : some (String.mk p1, String.mk p2) = some (leadStr, restStr) := hbs
          injection hbs' with hpair
          rw [Prod.mk.injEq] at hpair
          obtain ⟨hl, hr⟩ := hpair
          obtain ⟨l1, hdec, hp, hnotin, hhead⟩ :=
            (braceSplitAux_some _ [] p1 p2).mp haux
          have hp' : p1 = l1 := hp
          subst hp'
          constructor
          · intro h
            rw [Bool.and_eq_true] at h
            obtain ⟨hst, hjson⟩ := h
            cases hpj : parseJson restStr with
            | none => rw [hpj] at hjson; cases hjson
            | some v =>
              rw [hpj] at hjson
              refine ⟨p1, p2, v, by rw [hdec], hnotin, hhead, ?_, ?_, hjson⟩
              · rw [hl]; exact hst
              · rw [hr]; exact hpj
          · rintro ⟨lead, rest, v, hsplit, hnotin', hhead', hst, hpj, hpl⟩
            have huniq := first_brace_unique lead p1 rest p2
              (by rw [← hsplit, hdec]) hnotin' hnotin hhead' hhead
            obtain ⟨he1, he2⟩ := huniq
            rw [Bool.and_eq_true]
            constructor
            · rw [← hl, ← he1]; exact hst
            · rw [← hr, ← he2, hpj]; exact hpl

theorem jsonrpc_classification_witness :
    is_debug_jsonrpc_line
      (fun _ => some (Json.obj [("method", Json.str "m"), ("id", Json.null)]))
      "app-server \x7b" = true :=
  ((jsonrpc_classification
      (fun _ => some (Json.obj [("method", Json.str "m"), ("id", Json.null)]))).2
    "app-server \x7b").mpr
    ⟨"app-server ".toList, [braceChar],
      Json.obj [("method", Json.str "m"), ("id", Json.null)],
      by decide, by decide, rfl, by decide, rfl, by decide⟩

theorem dropLead_append :
    ∀ (p s r : List Char), dropLead p s = some r → s = p ++ r := by
  intro p
  induction p with
  | nil =>
    intro s r h
    injection h with h
  | cons a ps ih =>
    intro s r h
    cases s with
    | nil => cases h
    | cons c cs =>
      unfold dropLead at h
      by_cases hac : a = c
      · rw [if_pos hac] at h
        rw [hac]
        exact congrArg (c :: ·) (ih cs r h)
      · rw [if_neg hac] at h
        cases h

theorem stripLead_append (lead s r : String) (h : stripLead lead s = some r) :
    s = lead ++ r := by
  unfold stripLead at h
  cases hd : dropLead lead.toList s.toList with
  | none => rw [hd] at h; cases h
  | some cs =>
    rw [hd] at h
    injection h with h
    have hs := dropLead_append lead.toList s.toList cs hd
    have : s = String.mk (lead.toList ++ cs) := congrArg String.mk hs
    rw [this, ← h]
    rfl

theorem applyImport_id (w : String) (t imported : ThreadRec) :
    (applyImport w t imported).id = t.id := by
  unfold applyImport
  dsimp only
  repeat' split
  all_goals rfl

theorem updateFirst_mem_id (pred : ThreadRec → Bool) (f : ThreadRec → ThreadRec)
    (hf : ∀ u, (f u).id = u.id) :
    ∀ (ts : List ThreadRec) (t : ThreadRec), t ∈ updateFirst pred f ts →
      t.id ∈ ts.map fun u => u.id := by
  intro ts
  induction ts with
  | nil => intro t ht; cases ht
  | cons u us ih =>
    intro t ht
    unfold updateFirst at ht
    by_cases hp : pred u = true
    · rw [if_pos hp] at ht
      rcases List.mem_cons.mp ht with rfl | hmem
      · exact List.mem_map.mpr ⟨u, List.mem_cons_self _ _, (hf u).symm ▸ rfl⟩
      · exact List.mem_map.mpr ⟨t, List.mem_cons_of_mem _ hmem, rfl⟩
    · rw [if_neg hp] at ht
      rcases List.mem_cons.mp ht with rfl | hmem
      · exact List.mem_map.mpr ⟨t, List.mem_cons_self _ _, rfl⟩
      · rcases List.mem_map.mp (ih t hmem) with ⟨v, hv, hvid⟩
        exact List.mem_map.mpr ⟨v, List.mem_cons_of_mem _ hv, hvid⟩

theorem mergeOne_id_mem (wsPath : String) (threads : List ThreadRec) (it : ThreadRec) :
    ∀ t ∈ mergeOne wsPath threads it,
      t.id ∈ (threads.map fun u => u.id) ∨ t.id = it.id := by
  intro t ht
  unfold mergeOne at ht
  dsimp only at ht
  split at ht
  · exact Or.inl (updateFirst_mem_id _ _ (fun u => applyImport_id wsPath u _) threads t ht)
  · rcases List.mem_append.mp ht with hmem | hmem
    · exact Or.inl (List.mem_map.mpr ⟨t, hmem, rfl⟩)
    · rcases List.mem_cons.mp hmem with rfl | h
      · exact Or.inr rfl
      · cases h

/-- Claim C7 is false on the code for thread ids with whitespace after the
`claude-thread-` prefix: archiving `claude-thread- a` stores the variants
`claude-thread- a` and ` a`, but a later import with id ` a` (which matches
the second variant) is NOT suppressed, because the archive check normalizes
the import's id to `a`/`claude-thread-a`, neither of which is stored — so the
archived variant reappears in the merged list. -/
theorem archive_tombstone_counterexample :
    rustTrim "claude-thread- a" = "claude-thread- a"
    ∧ ¬("claude-thread- a" = "")
    ∧ " a" ∈ archived_id_variants "claude-thread- a"
    ∧ is_archived_thread_id
        ((lookupKey (persist_archived_thread_id [] "w" "claude-thread- a") "w").getD [])
        " a" = false
    ∧ (mergeImportedThreads
        ((lookupKey (persist_archived_thread_id [] "w" "claude-thread- a") "w").getD [])
        "/w" []
        [{ id := " a", cwd := "", preview := "p", createdAt := 1, updatedAt := 1,
           name := none, turns := [] }]).map (fun t => t.id) = [" a"] := by
  refine ⟨by decide, by decide, by decide, by decide, by decide⟩

/-- Claim C7 (amended): archiving a non-empty trimmed id `X` records both
normalized id variants (the trimmed id and its bare/`claude-thread-`-prefixed
counterpart) in the workspace's archive set; any imported thread whose id
matches either variant and is itself non-empty and free of surrounding
whitespace tests as archived and is therefore excluded from the merge: every
thread in the merged list either keeps an id already present in the store or
has an id that does not test as archived. -/
theorem archive_tombstone_suppression (snapshot : List (String × List String))
    (workspaceId workspacePath X : String) (hX : ¬(rustTrim X = "")) :
    (∀ v ∈ archived_id_variants X,
        v ∈ (lookupKey (persist_archived_thread_id snapshot workspaceId X)
          workspaceId).getD [])
    ∧ (∃ other, archived_id_variants X = [rustTrim X, other]
        ∧ (rustTrim X = "claude-thread-" ++ other
          ∨ other = "claude-thread-" ++ rustTrim X))
    ∧ (∀ archivedIds : List String,
        (∀ v ∈ archived_id_variants X, v ∈ archivedIds) →
        ∀ importedId ∈ archived_id_variants X,
          rustTrim importedId = importedId → ¬(importedId = "") →
          is_archived_thread_id archivedIds importedId = true)
    ∧ (∀ (archivedIds : List String) (threads importedList : List ThreadRec)
        (t : ThreadRec),
        t ∈ mergeImportedThreads archivedIds workspacePath threads importedList →
        t.id ∈ (threads.map fun u => u.id)
          ∨ is_archived_thread_id archivedIds t.id = false) := by
  refine ⟨?_, ?_, ?_, ?_⟩
  · intro v hv
    rw [persist_lookup]
    exact mem_sortStrings _ _ (mem_dedupKeepFirst _ _
      (List.mem_append.mpr (Or.inr hv)))
  · unfold archived_id_variants
    rw [if_neg hX]
    cases h : stripLead "claude-thread-" (rustTrim X) with
    | some suffix =>
      exact ⟨suffix, rfl, Or.inl (stripLead_append _ _ _ h)⟩
    | none =>
      exact ⟨"claude-thread-" ++ rustTrim X, rfl, Or.inr rfl⟩
  · intro archivedIds hsub importedId hvar htrim hne
    have hself : importedId ∈ archived_id_variants importedId := by
      unfold archived_id_variants
      rw [htrim, if_neg hne]
      cases h : stripLead "claude-thread-" importedId with
      | some suffix => exact List.mem_cons_self _ _
      | none => exact List.mem_cons_self _ _
    unfold is_archived_thread_id
    rw [List.any_eq_true]
    refine ⟨importedId, hself, ?_⟩
    have := hsub importedId hvar
    simpa using this
  · intro archivedIds threads importedList
    induction importedList generalizing threads with
    | nil =>
      intro t ht
      exact Or.inl (List.mem_map.mpr ⟨t, ht, rfl⟩)
    | cons it rest ih =>
      intro t ht
      unfold mergeImportedThreads at ht
      by_cases ha : is_archived_thread_id archivedIds it.id = true
      · rw [if_pos ha] at ht
        exact ih threads t ht
      · rw [if_neg ha] at ht
        rcases ih (mergeOne workspacePath threads it) t ht with hmem | hnot
        · rcases List.mem_map.mp hmem with ⟨u, hu, huid⟩
          rcases mergeOne_id_mem workspacePath threads it u hu with h | h
          · exact Or.inl (huid ▸ h)
          · right
            rw [← huid, h]
            exact Bool.not_eq_true _ ▸ (by simpa using ha)
        · exact Or.inr hnot

theorem archive_tombstone_suppression_witness :
    "X" ∈ (lookupKey (persist_archived_thread_id [] "w" "X") "w").getD []
    ∧ is_archived_thread_id ["X", "claude-thread-X"] "X" = true :=
  ⟨(archive_tombstone_suppression [] "w" "/w" "X" (by decide)).1 "X" (by decide),
    (archive_tombstone_suppression [] "w" "/w" "X" (by decide)).2.2.1
      ["X", "claude-thread-X"] (by decide) "X" (by decide) (by decide) (by decide)⟩

end ClaudeCore
